import Mathlib

/-!
# Verification of the batch_resize natural-order renaming engine

This file gives a shallow embedding of the filename renaming engine of the
batch_resize repository (tokenizer, extractors, natural sort key, rename plan
builder with collision resolution, collision-safe two-phase executor, and the
GUI download-loop URL deduplication), together with theorems settling the
specification claims about it.

The rename engine itself (rename.py) is exercised by the repository's test
scripts; its functions are modelled here from the specification, and the
concrete expectations recorded in the repository's test scripts
(test_rename.py, test_rename_functions.py, test_preview_only.py) are proved
about the model.  The URL deduplication loop is embedded directly from
gui.py (FileDownloaderThread.run).
-/

namespace BatchRename

/-! ## Decimal digits and numerals -/

/-- Numeric value of a decimal digit character (codepoint minus 48). -/
def charVal (c : Char) : Nat := c.toNat - 48

/-- The decimal digit character for a value below ten. -/
def digitChar (d : Nat) : Char := Char.ofNat (48 + d)

/-- Little-endian decimal digit characters of a number, with explicit fuel so
that the recursion is structural. -/
def digitsRevAux : Nat → Nat → List Char
  | 0, _ => []
  | fuel + 1, n => if n < 10 then [digitChar n] else digitChar (n % 10) :: digitsRevAux fuel (n / 10)

/-- Modelled from the spec: decimal rendering of a natural number, used for the
sequential numbering `1, 2, 3, …` and the disambiguating suffix values. -/
def natRepr (n : Nat) : String := ⟨(digitsRevAux (n + 1) n).reverse⟩

/-- Value of a little-endian digit character list (proof-side inverse of
`digitsRevAux`). -/
def vRev : List Char → Nat
  | [] => 0
  | c :: cs => charVal c + 10 * vRev cs

/-- Base-10 value of a (big-endian) digit-character run, ignoring leading
zeros for the value. -/
def digitsVal (l : List Char) : Nat := l.foldl (fun a c => 10 * a + charVal c) 0

/-! ## Tokenizer

Modelled from the spec: decompose a string into the maximal runs of digit and
non-digit characters, in order, covering the whole input. -/

/-- Characters belonging to the same run as `c`: equal digit-ness. -/
def runPred (c : Char) : Char → Bool := fun x => x.isDigit == c.isDigit

/-- Fuelled tokenizer: peel off the maximal run of the head character's class,
then continue.  `tokenize` supplies sufficient fuel. -/
def tokenizeF : Nat → List Char → List (List Char)
  | 0, _ => []
  | _ + 1, [] => []
  | fuel + 1, c :: cs =>
    ((c :: cs).takeWhile (runPred c)) :: tokenizeF fuel ((c :: cs).dropWhile (runPred c))

/-- Modelled from the spec: the tokenizer producing the alternating sequence of
maximal `Digit` / `NonDigit` runs of the input. -/
def tokenize (l : List Char) : List (List Char) := tokenizeF l.length l

/-- Tag of a run: `true` for a `Digit` run (runs are class-uniform). -/
def runIsDigit : List Char → Bool
  | [] => false
  | c :: _ => c.isDigit

/-! ## Extractors (modelled from the spec, §4.2) -/

/-- Modelled from the spec: concatenation of all `NonDigit` runs, in order. -/
def extract_text_only (s : String) : String :=
  ⟨((tokenize s.data).filter (fun r => !runIsDigit r)).flatten⟩

/-- Modelled from the spec: concatenation of all `Digit` runs, in order,
preserving leading zeros; empty when no digits are present. -/
def extract_numbers_only (s : String) : String :=
  ⟨((tokenize s.data).filter runIsDigit).flatten⟩

/-- Remove the first digit run from a run sequence, returning its value
(0 when there is none) and the remaining runs in order. -/
def removeFirstDigitRun : List (List Char) → Nat × List (List Char)
  | [] => (0, [])
  | r :: rs =>
    if runIsDigit r then (digitsVal r, rs)
    else
      let p := removeFirstDigitRun rs
      (p.1, r :: p.2)

/-- Modelled from the spec: the first digit run's value together with the
concatenation of all other runs; `(0, s)` when `s` has no digit run. -/
def extract_number_and_text (s : String) : Nat × String :=
  let p := removeFirstDigitRun (tokenize s.data)
  (p.1, ⟨p.2.flatten⟩)

/-- Modelled from the spec: value of the final run when it is a digit run,
otherwise 0. -/
def extract_number_at_end (s : String) : Nat :=
  match (tokenize s.data).getLast? with
  | some r => if runIsDigit r then digitsVal r else 0
  | none => 0

/-! ## Natural sort key (modelled from the spec, §4.3) -/

/-- One element of a `SortKey`: a text run or a numeric run's value. -/
inductive SortElem where
  | text (s : String)
  | num (n : Nat)
deriving DecidableEq

/-- Three-way comparison on naturals. -/
def cmpNat (a b : Nat) : Ordering := if a < b then .lt else if a = b then .eq else .gt

/-- Lexicographic comparison of lists by an element comparison; a strict
prefix sorts first. -/
def lexCmp (c : α → α → Ordering) : List α → List α → Ordering
  | [], [] => .eq
  | [], _ :: _ => .lt
  | _ :: _, [] => .gt
  | a :: as, b :: bs =>
    match c a b with
    | .eq => lexCmp c as bs
    | o => o

/-- Character comparison by codepoint. -/
def cmpChar (a b : Char) : Ordering := cmpNat a.toNat b.toNat

/-- Ordinary character-by-character string comparison. -/
def cmpStr (s t : String) : Ordering := lexCmp cmpChar s.data t.data

/-- Comparison of key elements: numbers by value, text by character ordering,
and `text` always less than `num` at the same position. -/
def cmpElem : SortElem → SortElem → Ordering
  | .text s, .text t => cmpStr s t
  | .num a, .num b => cmpNat a b
  | .text _, .num _ => .lt
  | .num _, .text _ => .gt

/-- A sort key: the ordered run sequence of a filename. -/
abbrev SortKey := List SortElem

/-- Lexicographic comparison of sort keys. -/
def cmpKey (a b : SortKey) : Ordering := lexCmp cmpElem a b

/-- Modelled from the spec: tokenizes the full displayed name and maps each
run to a `text` or `num` element. -/
def natural_sort_key (name : String) : SortKey :=
  (tokenize name.data).map (fun r => if runIsDigit r then .num (digitsVal r) else .text ⟨r⟩)

/-- Boolean "less or equal" on names via their natural sort keys. -/
def keyLe (a b : String) : Bool := cmpKey (natural_sort_key a) (natural_sort_key b) != .gt

/-! ## File entries and sorting (modelled from the spec, §3 and §4.4) -/

/-- A directory entry: stem, extension (with leading separator, possibly
empty) and an identity tag standing for the file's content. -/
structure FileEntry where
  stem : String
  ext : String
  id : Nat
deriving DecidableEq

/-- Displayed filename of an entry. -/
def FileEntry.name (e : FileEntry) : String := e.stem ++ e.ext

/-- Sort mode of the lister/sorter. -/
inductive SortMode where
  | byName
  | byNumber
deriving DecidableEq

/-- Ordering predicate used by `sort_files`: by natural key, or by extracted
leading number with natural-key tie-break. -/
def entryLe (m : SortMode) (a b : FileEntry) : Bool :=
  match m with
  | .byName => keyLe a.name b.name
  | .byNumber =>
    let na := (extract_number_and_text a.stem).1
    let nb := (extract_number_and_text b.stem).1
    if na = nb then keyLe a.name b.name else decide (na < nb)

/-- Stable insertion of an element into a sorted list. -/
def insertSorted (le : α → α → Bool) (a : α) : List α → List α
  | [] => [a]
  | b :: bs => if le a b then a :: b :: bs else b :: insertSorted le a bs

/-- Stable insertion sort (the engine's deterministic ordering pass). -/
def isort (le : α → α → Bool) : List α → List α
  | [] => []
  | a :: as => insertSorted le a (isort le as)

/-- Modelled from the spec: order the listed entries by the selected mode. -/
def sort_files (entries : List FileEntry) (m : SortMode) : List FileEntry :=
  isort (entryLe m) entries

/-! ## Rename plan builder (modelled from the spec, §4.5) -/

/-- Naming policy variants. -/
inductive Policy where
  | sequential
  | numbers_only
  | text_only
deriving DecidableEq

/-- Try candidates `cand n, cand (n+1), …`, returning the first one not in
`avoid`; fuelled so the recursion is structural (`avoid.length + 1` fuel is
always sufficient, proved below). -/
def findAvail (cand : Nat → String) (avoid : List String) : Nat → Nat → String
  | 0, n => cand n
  | fuel + 1, n => if cand n ∈ avoid then findAvail cand avoid fuel (n + 1) else cand n

/-- Modelled from the spec: per-entry destination stem before collision
resolution (`pos` is the 1-based position for the sequential policy). -/
def computedStem (policy : Policy) (pre suf : String) (pos : Nat) (stem : String) : String :=
  match policy with
  | .sequential => pre ++ natRepr pos ++ suf
  | .numbers_only => pre ++ extract_numbers_only stem ++ suf
  | .text_only => pre ++ extract_text_only stem ++ suf

/-- Modelled from the spec: collision resolution — keep a used set; an already
used stem gets the first free `_<n>` suffix, n = 2, 3, … ascending. -/
def resolveStem (used : List String) (s : String) : String :=
  if s ∈ used then findAvail (fun n => s ++ "_" ++ natRepr n) used (used.length + 1) 2 else s

/-- Plan construction loop: entries in order, threading the used-stem set and
the 1-based position. -/
def build_plan_aux (policy : Policy) (pre suf : String) :
    List String → Nat → List FileEntry → List (FileEntry × String)
  | _, _, [] => []
  | used, pos, e :: es =>
    let st := resolveStem used (computedStem policy pre suf pos e.stem)
    (e, st) :: build_plan_aux policy pre suf (st :: used) (pos + 1) es

/-- Modelled from the spec: the full source → destination-stem plan. -/
def build_plan (entries : List FileEntry) (policy : Policy) (pre suf : String) :
    List (FileEntry × String) :=
  build_plan_aux policy pre suf [] 1 entries

/-- Reference shape of the sequential plan: entry at offset `k` gets stem
`pre ++ natRepr (pos + k) ++ suf`. -/
def seqPlan (pre suf : String) : List FileEntry → Nat → List (FileEntry × String)
  | [], _ => []
  | e :: es, pos => (e, pre ++ natRepr pos ++ suf) :: seqPlan pre suf es (pos + 1)

/-! ## Rename executor (modelled from the spec, §4.6) -/

/-- One executable plan entry: current name, planned destination name, and the
identity of the file's content. -/
structure PlanEntry where
  src : String
  dest : String
  id : Nat
deriving DecidableEq

/-- The directory: an association of names to file identities. -/
abbrev FS := List (String × Nat)

/-- The names present in the directory. -/
def names (fs : FS) : List String := fs.map Prod.fst

/-- Filesystem rename: `a` to `b`.  A pre-existing occupant of `b` is lost
(overwritten) — the executor is proved never to cause this. -/
def renameFile (fs : FS) (a b : String) : FS :=
  if a = b then fs
  else (fs.filter (fun p => decide (p.1 ≠ b))).map (fun p => if p.1 = a then (b, p.2) else p)

/-- Modelled from the spec: a temporary, guaranteed-unused name (process-unique
marker plus counter, first value free of `avoid`). -/
def freshTemp (avoid : List String) : String :=
  findAvail (fun k => "__batchtmp_" ++ natRepr k) avoid (avoid.length + 1) 0

/-- Modelled from the spec: first pass.  An entry whose destination currently
exists (and is not its own source) is renamed to a fresh temporary name and
deferred; all other entries are renamed directly. -/
def phase1 (dests : List String) : List PlanEntry → FS → FS × List (String × String)
  | [], fs => (fs, [])
  | e :: rest, fs =>
    if e.dest ∈ names fs ∧ e.dest ≠ e.src then
      let t := freshTemp (names fs ++ dests)
      let r := phase1 dests rest (renameFile fs e.src t)
      (r.1, r.2 ++ [(t, e.dest)])
    else
      phase1 dests rest (renameFile fs e.src e.dest)

/-- Modelled from the spec: second pass — every temporarily named file is
renamed to its true destination. -/
def phase2 : List (String × String) → FS → FS
  | [], fs => fs
  | (t, d) :: pend, fs => phase2 pend (renameFile fs t d)

/-- Modelled from the spec: the collision-safe two-phase execution of a plan. -/
def execute_plan (plan : List PlanEntry) (fs : FS) : FS :=
  let r := phase1 (plan.map PlanEntry.dest) plan fs
  phase2 r.2 r.1

/-! ## Top-level rename operation (modelled from the spec, §4.6 and §6) -/

/-- Run modes of the operation. -/
inductive RunMode where
  | dryRun
  | preview
  | execute
deriving DecidableEq

/-- The human-readable preview line for one plan entry. -/
def previewLine (e : FileEntry) (destStem : String) : String :=
  e.name ++ " -> " ++ (destStem ++ e.ext)

/-- Turn a planned (entry, destination stem) pair into an executable entry:
the extension is carried over unchanged. -/
def toPlanEntry (p : FileEntry × String) : PlanEntry :=
  ⟨p.1.name, p.2 ++ p.1.ext, p.1.id⟩

/-- The directory contents corresponding to a listed entry sequence. -/
def initFS (entries : List FileEntry) : FS :=
  entries.map (fun e => (e.name, e.id))

/-- Modelled from the spec: sort, build the plan, then either emit the preview
lines (Preview additionally states that nothing was modified) without touching
the directory, or execute the plan for real. -/
def rename_files (entries : List FileEntry) (sm : SortMode) (policy : Policy)
    (pre suf : String) (mode : RunMode) : List String × FS :=
  let ordered := sort_files entries sm
  let plan := build_plan ordered policy pre suf
  let lines := plan.map (fun p => previewLine p.1 p.2)
  match mode with
  | .execute => (lines, execute_plan (plan.map toPlanEntry) (initFS entries))
  | .preview => (lines ++ ["Preview complete! No files were actually renamed"], initFS entries)
  | .dryRun => (lines, initFS entries)

/-! ## GUI download loop deduplication (embedded from gui.py,
`FileDownloaderThread.run`) -/

/-- The seen-set loop of `FileDownloaderThread.run`: keep a URL only when it
has not been seen before. -/
def uniqueUrlsAux (seen : List String) : List String → List String
  | [] => []
  | u :: us => if u ∈ seen then uniqueUrlsAux seen us else u :: uniqueUrlsAux (u :: seen) us

/-- The deduplicated URL sequence the download loop iterates over. -/
def unique_urls (urls : List String) : List String := uniqueUrlsAux [] urls

/-- The total reported by the download loop: the number of unique URLs. -/
def downloadTotal (urls : List String) : Nat := (unique_urls urls).length

/-- The claim's description of deduplication: keep each first occurrence,
removing every later occurrence. -/
def removeLaterDups : List String → List String
  | [] => []
  | u :: us => u :: removeLaterDups (us.filter (fun v => decide (v ≠ u)))
termination_by l => l.length
decreasing_by
  simp only [List.length_cons]
  exact Nat.lt_succ_of_le (List.length_filter_le _ _)

/-! # Theorems -/

/-! ## Decimal numerals -/

theorem charVal_digitChar {d : Nat} (h : d < 10) : charVal (digitChar d) = d := by
  interval_cases d <;> decide

theorem vRev_digitsRevAux : ∀ (fuel n : Nat), n < fuel → vRev (digitsRevAux fuel n) = n := by
  intro fuel
  induction fuel with
  | zero => intro n h; omega
  | succ fuel ih =>
    intro n h
    by_cases h10 : n < 10
    · simp [digitsRevAux, h10, vRev, charVal_digitChar h10]
    · have hdiv : n / 10 < fuel := by
        have h1 : n / 10 < n := Nat.div_lt_self (by omega) (by omega)
        omega
      have hmod : n % 10 < 10 := Nat.mod_lt _ (by omega)
      simp only [digitsRevAux, if_neg h10, vRev, charVal_digitChar hmod, ih _ hdiv]
      omega

theorem natRepr_injective : Function.Injective natRepr := by
  intro m n h
  have hdata : (digitsRevAux (m + 1) m).reverse = (digitsRevAux (n + 1) n).reverse :=
    congrArg String.data h
  have h2 := List.reverse_injective hdata
  have h3 := congrArg vRev h2
  rwa [vRev_digitsRevAux _ _ (Nat.lt_succ_self m), vRev_digitsRevAux _ _ (Nat.lt_succ_self n)] at h3

theorem string_append_cancel_left {s a b : String} (h : s ++ a = s ++ b) : a = b := by
  apply String.ext
  have hd : s.data ++ a.data = s.data ++ b.data := by
    rw [← String.data_append, ← String.data_append, h]
  exact List.append_cancel_left hd

theorem string_append_cancel_right {s a b : String} (h : a ++ s = b ++ s) : a = b := by
  apply String.ext
  have hd : a.data ++ s.data = b.data ++ s.data := by
    rw [← String.data_append, ← String.data_append, h]
  exact List.append_cancel_right hd

/-! ## `findAvail` always finds an unused candidate -/

theorem countP_mem_cons (x : String) (L : List String) (hx : x ∉ L) (l : List String) :
    (l.countP fun u => decide (u ∈ x :: L)) =
      (l.countP fun u => decide (u = x)) + (l.countP fun u => decide (u ∈ L)) := by
  induction l with
  | nil => simp
  | cons h t ih =>
    simp only [List.countP_cons, ih]
    by_cases hhx : h = x
    · subst hhx
      simp [hx]
      omega
    · by_cases hhL : h ∈ L
      · simp [hhx, hhL]
        omega
      · simp [hhx, hhL]

theorem candList_shift (cand : Nat → String) (n fuel : Nat) :
    (List.range (fuel + 1)).map (fun i => cand (n + i)) =
      cand n :: (List.range fuel).map (fun i => cand (n + 1 + i)) := by
  rw [List.range_succ_eq_map]
  simp only [List.map_cons, List.map_map, Nat.add_zero]
  refine congrArg _ ?_
  apply List.map_congr_left
  intro i _
  simp only [Function.comp_apply, Nat.succ_eq_add_one]
  exact congrArg cand (by omega)

theorem findAvail_aux (cand : Nat → String) (hinj : Function.Injective cand)
    (avoid : List String) :
    ∀ (fuel n : Nat),
      (avoid.countP fun u => decide (u ∈ (List.range fuel).map fun i => cand (n + i))) < fuel →
      findAvail cand avoid fuel n ∉ avoid := by
  intro fuel
  induction fuel with
  | zero => intro n h; omega
  | succ fuel ih =>
    intro n h
    by_cases hc : cand n ∈ avoid
    · rw [findAvail, if_pos hc]
      apply ih (n + 1)
      have hnotin : cand n ∉ (List.range fuel).map fun i => cand (n + 1 + i) := by
        intro hmem
        rcases List.mem_map.mp hmem with ⟨i, _, hi⟩
        have := hinj hi
        omega
      have hsplit := countP_mem_cons (cand n) ((List.range fuel).map fun i => cand (n + 1 + i))
        hnotin avoid
      rw [candList_shift] at h
      have hpos : 0 < avoid.countP fun u => decide (u = cand n) :=
        List.countP_pos_iff.mpr ⟨cand n, hc, by simp⟩
      omega
    · rw [findAvail, if_neg hc]
      exact hc

theorem findAvail_not_mem (cand : Nat → String) (hinj : Function.Injective cand)
    (avoid : List String) (n : Nat) :
    findAvail cand avoid (avoid.length + 1) n ∉ avoid := by
  apply findAvail_aux cand hinj avoid
  exact Nat.lt_succ_of_le (List.countP_le_length _)

theorem resolveStem_not_mem (used : List String) (s : String) :
    resolveStem used s ∉ used := by
  rw [resolveStem]
  by_cases h : s ∈ used
  · rw [if_pos h]
    apply findAvail_not_mem
    intro i j hij
    exact natRepr_injective (string_append_cancel_left hij)
  · rwa [if_neg h]

theorem freshTemp_not_mem (avoid : List String) : freshTemp avoid ∉ avoid := by
  apply findAvail_not_mem
  intro i j hij
  exact natRepr_injective (string_append_cancel_left hij)

/-! ## Plan builder: uniqueness and sequential shape -/

theorem build_plan_aux_nodup (policy : Policy) (pre suf : String) :
    ∀ (es : List FileEntry) (used : List String) (pos : Nat),
      ((build_plan_aux policy pre suf used pos es).map Prod.snd).Nodup ∧
      ∀ x ∈ (build_plan_aux policy pre suf used pos es).map Prod.snd, x ∉ used := by
  intro es
  induction es with
  | nil => intro used pos; simp [build_plan_aux]
  | cons e es ih =>
    intro used pos
    simp only [build_plan_aux, List.map_cons, List.nodup_cons, List.mem_cons]
    set st := resolveStem used (computedStem policy pre suf pos e.stem) with hst
    have hstu : st ∉ used := resolveStem_not_mem _ _
    obtain ⟨ihnd, ihmem⟩ := ih (st :: used) (pos + 1)
    refine ⟨⟨?_, ihnd⟩, ?_⟩
    · intro hmem
      have := ihmem st hmem
      simp at this
    · rintro x (rfl | hx)
      · exact hstu
      · have := ihmem x hx
        intro hxu
        exact this (List.mem_cons_of_mem _ hxu)

theorem seq_stem_injective (pre suf : String) {i j : Nat}
    (h : pre ++ natRepr i ++ suf = pre ++ natRepr j ++ suf) : i = j := by
  have h1 : pre ++ natRepr i = pre ++ natRepr j := string_append_cancel_right h
  exact natRepr_injective (string_append_cancel_left h1)

theorem build_plan_aux_seq (pre suf : String) :
    ∀ (es : List FileEntry) (used : List String) (pos : Nat),
      (∀ j, pos ≤ j → (pre ++ natRepr j ++ suf) ∉ used) →
      build_plan_aux .sequential pre suf used pos es = seqPlan pre suf es pos := by
  intro es
  induction es with
  | nil => intro used pos _; rfl
  | cons e es ih =>
    intro used pos h
    have hstem : computedStem .sequential pre suf pos e.stem = pre ++ natRepr pos ++ suf := rfl
    have hres : resolveStem used (pre ++ natRepr pos ++ suf) = pre ++ natRepr pos ++ suf := by
      rw [resolveStem, if_neg (h pos (Nat.le_refl pos))]
    simp only [build_plan_aux, hstem, hres, seqPlan]
    refine congrArg _ ?_
    apply ih
    intro j hj
    simp only [List.mem_cons, not_or]
    constructor
    · intro heq
      have := seq_stem_injective pre suf heq
      omega
    · exact h j (by omega)

theorem seqPlan_getElem? (pre suf : String) :
    ∀ (es : List FileEntry) (pos i : Nat) (e : FileEntry),
      es[i]? = some e →
      (seqPlan pre suf es pos)[i]? = some (e, pre ++ natRepr (pos + i) ++ suf) := by
  intro es
  induction es with
  | nil => intro pos i e h; simp at h
  | cons a as ih =>
    intro pos i e h
    cases i with
    | zero =>
      simp only [List.getElem?_cons_zero, Option.some_inj] at h
      subst h
      simp [seqPlan]
    | succ i =>
      simp only [List.getElem?_cons_succ] at h
      have := ih (pos + 1) i e h
      simpa [seqPlan, Nat.add_assoc, Nat.add_comm 1 i] using this

/-! ## Tokenizer structure -/

theorem runPred_self (c : Char) : runPred c c = true := by
  simp [runPred]

theorem runPred_digit {c : Char} (h : c.isDigit = true) : runPred c = Char.isDigit := by
  funext x
  simp [runPred, h]

theorem runPred_nondigit {c : Char} (h : c.isDigit = false) :
    runPred c = fun x => !x.isDigit := by
  funext x
  simp [runPred, h]

theorem tokenizeF_nil : ∀ fuel, tokenizeF fuel [] = [] := by
  intro fuel
  cases fuel <;> rfl

theorem tokenizeF_fuel : ∀ (fuel : Nat) (l : List Char) (fuel' : Nat),
    l.length ≤ fuel → l.length ≤ fuel' → tokenizeF fuel l = tokenizeF fuel' l := by
  intro fuel
  induction fuel with
  | zero =>
    intro l fuel' h _
    have : l = [] := List.eq_nil_of_length_eq_zero (Nat.le_zero.mp h)
    subst this
    rw [tokenizeF_nil, tokenizeF_nil]
  | succ fuel ih =>
    intro l fuel' h h'
    cases l with
    | nil => rw [tokenizeF_nil, tokenizeF_nil]
    | cons c cs =>
      cases fuel' with
      | zero => simp at h'
      | succ f' =>
        show ((c :: cs).takeWhile (runPred c)) :: tokenizeF fuel ((c :: cs).dropWhile (runPred c)) =
          ((c :: cs).takeWhile (runPred c)) :: tokenizeF f' ((c :: cs).dropWhile (runPred c))
        refine congrArg _ ?_
        have hdrop : (c :: cs).dropWhile (runPred c) = cs.dropWhile (runPred c) :=
          List.dropWhile_cons_of_pos (runPred_self c)
        have hlen : (cs.dropWhile (runPred c)).length ≤ cs.length :=
          (List.dropWhile_sublist _).length_le
        rw [hdrop]
        exact ih _ f' (by simp at h; omega) (by simp at h'; omega)

theorem tokenize_cons (c : Char) (cs : List Char) :
    tokenize (c :: cs) =
      ((c :: cs).takeWhile (runPred c)) :: tokenize ((c :: cs).dropWhile (runPred c)) := by
  show tokenizeF (cs.length + 1) (c :: cs) = _
  show ((c :: cs).takeWhile (runPred c)) :: tokenizeF cs.length ((c :: cs).dropWhile (runPred c)) = _
  refine congrArg _ ?_
  have hdrop : (c :: cs).dropWhile (runPred c) = cs.dropWhile (runPred c) :=
    List.dropWhile_cons_of_pos (runPred_self c)
  have hlen : (cs.dropWhile (runPred c)).length ≤ cs.length :=
    (List.dropWhile_sublist _).length_le
  rw [hdrop]
  exact tokenizeF_fuel _ _ _ hlen (Nat.le_refl _)

theorem tokenize_flatten_aux : ∀ (n : Nat) (l : List Char), l.length ≤ n →
    (tokenize l).flatten = l := by
  intro n
  induction n with
  | zero =>
    intro l h
    have : l = [] := List.eq_nil_of_length_eq_zero (Nat.le_zero.mp h)
    subst this
    rfl
  | succ n ih =>
    intro l h
    cases l with
    | nil => rfl
    | cons c cs =>
      rw [tokenize_cons, List.flatten_cons]
      have hdrop : (c :: cs).dropWhile (runPred c) = cs.dropWhile (runPred c) :=
        List.dropWhile_cons_of_pos (runPred_self c)
      have hlen : ((c :: cs).dropWhile (runPred c)).length ≤ n := by
        rw [hdrop]
        have := (List.dropWhile_sublist (l := cs) (runPred c)).length_le
        simp at h
        omega
      rw [ih _ hlen, List.takeWhile_append_dropWhile]

theorem tokenize_flatten (l : List Char) : (tokenize l).flatten = l :=
  tokenize_flatten_aux l.length l (Nat.le_refl _)

theorem dropWhile_head_false {α : Type} {p : α → Bool} :
    ∀ {l : List α} {a : α} {as : List α}, l.dropWhile p = a :: as → p a = false := by
  intro l
  induction l with
  | nil => intro a as h; simp [List.dropWhile] at h
  | cons x xs ih =>
    intro a as h
    by_cases hx : p x = true
    · rw [List.dropWhile_cons_of_pos hx] at h
      exact ih h
    · rw [List.dropWhile_cons_of_neg hx] at h
      cases h
      simpa using hx

theorem takeWhile_eq_nil_of_all {α : Type} {p : α → Bool} {l : List α}
    (h : ∀ x ∈ l, p x = false) : l.takeWhile p = [] := by
  cases l with
  | nil => rfl
  | cons c cs =>
    apply List.takeWhile_cons_of_neg
    simp [h c (List.mem_cons_self c cs)]

theorem takeWhile_append_all {α : Type} {p : α → Bool} {xs : List α} (ys : List α)
    (h : ∀ x ∈ xs, p x = true) : (xs ++ ys).takeWhile p = xs ++ ys.takeWhile p := by
  rw [List.takeWhile_append, if_pos]
  rw [List.takeWhile_eq_self_iff.mpr h]

theorem takeWhile_append_stop {α : Type} {p : α → Bool} {xs : List α} (ys : List α)
    (h : ∃ x ∈ xs, p x = false) : (xs ++ ys).takeWhile p = xs.takeWhile p := by
  rw [List.takeWhile_append, if_neg]
  intro hlen
  have hself : xs.takeWhile p = xs := (List.takeWhile_sublist p).eq_of_length hlen
  rcases h with ⟨x, hx, hpx⟩
  have := List.takeWhile_eq_self_iff.mp hself x hx
  rw [this] at hpx
  exact Bool.true_eq_false.mp hpx

/-! ## Extractor characterizations -/

theorem tokenize_filter_digit : ∀ (n : Nat) (l : List Char), l.length ≤ n →
    ((tokenize l).filter runIsDigit).flatten = l.filter Char.isDigit := by
  intro n
  induction n with
  | zero =>
    intro l h
    have : l = [] := List.eq_nil_of_length_eq_zero (Nat.le_zero.mp h)
    subst this
    rfl
  | succ n ih =>
    intro l h
    cases l with
    | nil => rfl
    | cons c cs =>
      simp only [List.length_cons] at h
      have hlen : ((c :: cs).dropWhile (runPred c)).length ≤ n := by
        rw [List.dropWhile_cons_of_pos (runPred_self c)]
        have := (List.dropWhile_sublist (l := cs) (runPred c)).length_le
        omega
      rw [tokenize_cons]
      cases hd : c.isDigit with
      | true =>
        rw [runPred_digit hd] at hlen ⊢
        have htw : (c :: cs).takeWhile Char.isDigit = c :: cs.takeWhile Char.isDigit :=
          List.takeWhile_cons_of_pos hd
        have hrd : runIsDigit ((c :: cs).takeWhile Char.isDigit) = true := by
          rw [htw]; exact hd
        rw [List.filter_cons_of_pos hrd, List.flatten_cons, ih _ hlen]
        conv_rhs => rw [← List.takeWhile_append_dropWhile (p := Char.isDigit) (l := c :: cs)]
        rw [List.filter_append]
        have hself : ((c :: cs).takeWhile Char.isDigit).filter Char.isDigit =
            (c :: cs).takeWhile Char.isDigit :=
          List.filter_eq_self.mpr fun a ha => List.mem_takeWhile_imp ha
        rw [hself]
      | false =>
        rw [runPred_nondigit hd] at hlen ⊢
        have htw : (c :: cs).takeWhile (fun x => !x.isDigit) =
            c :: cs.takeWhile (fun x => !x.isDigit) :=
          List.takeWhile_cons_of_pos (by simp [hd])
        have hrd : runIsDigit ((c :: cs).takeWhile fun x => !x.isDigit) = false := by
          rw [htw]; exact hd
        rw [List.filter_cons_of_neg (by simp [hrd]), ih _ hlen]
        conv_rhs => rw [← List.takeWhile_append_dropWhile (p := fun x => !x.isDigit) (l := c :: cs)]
        rw [List.filter_append]
        have hnil : ((c :: cs).takeWhile fun x => !x.isDigit).filter Char.isDigit = [] := by
          apply List.filter_eq_nil_iff.mpr
          intro a ha
          have := List.mem_takeWhile_imp ha
          simp at this
          simp [this]
        rw [hnil, List.nil_append]

theorem tokenize_filter_nondigit : ∀ (n : Nat) (l : List Char), l.length ≤ n →
    ((tokenize l).filter (fun r => !runIsDigit r)).flatten = l.filter (fun c => !c.isDigit) := by
  intro n
  induction n with
  | zero =>
    intro l h
    have : l = [] := List.eq_nil_of_length_eq_zero (Nat.le_zero.mp h)
    subst this
    rfl
  | succ n ih =>
    intro l h
    cases l with
    | nil => rfl
    | cons c cs =>
      simp only [List.length_cons] at h
      have hlen : ((c :: cs).dropWhile (runPred c)).length ≤ n := by
        rw [List.dropWhile_cons_of_pos (runPred_self c)]
        have := (List.dropWhile_sublist (l := cs) (runPred c)).length_le
        omega
      rw [tokenize_cons]
      cases hd : c.isDigit with
      | false =>
        rw [runPred_nondigit hd] at hlen ⊢
        have htw : (c :: cs).takeWhile (fun x => !x.isDigit) =
            c :: cs.takeWhile (fun x => !x.isDigit) :=
          List.takeWhile_cons_of_pos (by simp [hd])
        have hrd : runIsDigit ((c :: cs).takeWhile fun x => !x.isDigit) = false := by
          rw [htw]; exact hd
        rw [List.filter_cons_of_pos (by simp [hrd]), List.flatten_cons, ih _ hlen]
        conv_rhs => rw [← List.takeWhile_append_dropWhile (p := fun x => !x.isDigit) (l := c :: cs)]
        rw [List.filter_append]
        have hself : ((c :: cs).takeWhile fun x => !x.isDigit).filter (fun c => !c.isDigit) =
            (c :: cs).takeWhile fun x => !x.isDigit := by
          apply List.filter_eq_self.mpr
          intro a ha
          have h2 := List.mem_takeWhile_imp ha
          simpa using h2
        rw [hself]
      | true =>
        rw [runPred_digit hd] at hlen ⊢
        have htw : (c :: cs).takeWhile Char.isDigit = c :: cs.takeWhile Char.isDigit :=
          List.takeWhile_cons_of_pos hd
        have hrd : runIsDigit ((c :: cs).takeWhile Char.isDigit) = true := by
          rw [htw]; exact hd
        rw [List.filter_cons_of_neg (by simp [hrd]), ih _ hlen]
        conv_rhs => rw [← List.takeWhile_append_dropWhile (p := Char.isDigit) (l := c :: cs)]
        rw [List.filter_append]
        have hnil : ((c :: cs).takeWhile Char.isDigit).filter (fun c => !c.isDigit) = [] := by
          apply List.filter_eq_nil_iff.mpr
          intro a ha
          have := List.mem_takeWhile_imp ha
          simp [this]
        rw [hnil, List.nil_append]

theorem removeFirst_tokenize_spec (l : List Char) :
    (removeFirstDigitRun (tokenize l)).1 =
      digitsVal ((l.dropWhile fun c => !c.isDigit).takeWhile Char.isDigit) ∧
    (removeFirstDigitRun (tokenize l)).2.flatten =
      (l.takeWhile fun c => !c.isDigit) ++
        ((l.dropWhile fun c => !c.isDigit).dropWhile Char.isDigit) := by
  cases l with
  | nil => exact ⟨rfl, rfl⟩
  | cons c cs =>
    rw [tokenize_cons]
    cases hd : c.isDigit with
    | true =>
      rw [runPred_digit hd]
      have htw : (c :: cs).takeWhile Char.isDigit = c :: cs.takeWhile Char.isDigit :=
        List.takeWhile_cons_of_pos hd
      have hrd : runIsDigit ((c :: cs).takeWhile Char.isDigit) = true := by
        rw [htw]; exact hd
      have hdw : (c :: cs).dropWhile (fun c => !c.isDigit) = c :: cs :=
        List.dropWhile_cons_of_neg (by simp [hd])
      have htw0 : (c :: cs).takeWhile (fun c => !c.isDigit) = [] :=
        List.takeWhile_cons_of_neg (by simp [hd])
      rw [removeFirstDigitRun, if_pos hrd]
      exact ⟨by rw [hdw], by rw [tokenize_flatten, htw0, hdw, List.nil_append]⟩
    | false =>
      rw [runPred_nondigit hd]
      have htw : (c :: cs).takeWhile (fun x => !x.isDigit) =
          c :: cs.takeWhile (fun x => !x.isDigit) :=
        List.takeWhile_cons_of_pos (by simp [hd])
      have hrd : runIsDigit ((c :: cs).takeWhile fun x => !x.isDigit) = false := by
        rw [htw]; exact hd
      rw [removeFirstDigitRun, if_neg (by simp [hrd])]
      simp only []
      cases hrest : (c :: cs).dropWhile (fun x => !x.isDigit) with
      | nil =>
        refine ⟨rfl, ?_⟩
        show (((c :: cs).takeWhile fun x => !x.isDigit) ::
          (removeFirstDigitRun (tokenize [])).2).flatten = _
        simp [tokenize, tokenizeF, removeFirstDigitRun]
      | cons d ds =>
        have hd1 : d.isDigit = true := by
          have := dropWhile_head_false hrest
          simpa using this
        rw [tokenize_cons, runPred_digit hd1]
        have htwd : (d :: ds).takeWhile Char.isDigit = d :: ds.takeWhile Char.isDigit :=
          List.takeWhile_cons_of_pos hd1
        have hrdd : runIsDigit ((d :: ds).takeWhile Char.isDigit) = true := by
          rw [htwd]; exact hd1
        rw [removeFirstDigitRun, if_pos hrdd]
        refine ⟨rfl, ?_⟩
        rw [List.flatten_cons, tokenize_flatten]

theorem getLast?_cons_of_ne_nil {α : Type} (a : α) {l : List α} (h : l ≠ []) :
    (a :: l).getLast? = l.getLast? := by
  cases l with
  | nil => exact absurd rfl h
  | cons b bs => exact List.getLast?_cons_cons

theorem extract_end_aux : ∀ (n : Nat) (l : List Char), l.length ≤ n →
    extract_number_at_end ⟨l⟩ = digitsVal ((l.reverse.takeWhile Char.isDigit).reverse) := by
  intro n
  induction n with
  | zero =>
    intro l h
    have : l = [] := List.eq_nil_of_length_eq_zero (Nat.le_zero.mp h)
    subst this
    rfl
  | succ n ih =>
    intro l h
    cases l with
    | nil => rfl
    | cons c cs =>
      simp only [List.length_cons] at h
      have hbody : extract_number_at_end ⟨c :: cs⟩ =
          match (tokenize (c :: cs)).getLast? with
          | some r => if runIsDigit r then digitsVal r else 0
          | none => 0 := rfl
      rw [hbody, tokenize_cons]
      cases hrest : (c :: cs).dropWhile (runPred c) with
      | nil =>
        have hrun : (c :: cs).takeWhile (runPred c) = c :: cs := by
          have := List.takeWhile_append_dropWhile (p := runPred c) (l := c :: cs)
          rwa [hrest, List.append_nil] at this
        have hall : ∀ x ∈ c :: cs, x.isDigit = c.isDigit := by
          intro x hx
          have := List.mem_takeWhile_imp (hrun ▸ hx)
          simpa [runPred] using this
        have htok : tokenize ([] : List Char) = [] := rfl
        rw [htok]
        show (if runIsDigit ((c :: cs).takeWhile (runPred c)) then
          digitsVal ((c :: cs).takeWhile (runPred c)) else 0) = _
        rw [hrun]
        cases hd : c.isDigit with
        | true =>
          have hselfrev : (c :: cs).reverse.takeWhile Char.isDigit = (c :: cs).reverse := by
            apply List.takeWhile_eq_self_iff.mpr
            intro x hx
            rw [hall x (List.mem_reverse.mp hx)]
            exact hd
          rw [hselfrev, List.reverse_reverse]
          show (if c.isDigit then digitsVal (c :: cs) else 0) = _
          rw [hd]
          rfl
        | false =>
          have hnilrev : (c :: cs).reverse.takeWhile Char.isDigit = [] := by
            apply takeWhile_eq_nil_of_all
            intro x hx
            rw [hall x (List.mem_reverse.mp hx)]
            exact hd
          rw [hnilrev]
          show (if c.isDigit then digitsVal (c :: cs) else 0) = _
          rw [hd]
          rfl
      | cons r rs =>
        have hne : tokenize (r :: rs) ≠ [] := by
          rw [tokenize_cons]
          exact List.cons_ne_nil _ _
        rw [getLast?_cons_of_ne_nil _ hne]
        have hlenr : (r :: rs).length ≤ n := by
          have hsub := (List.dropWhile_sublist (l := c :: cs) (runPred c)).length_le
          rw [hrest] at hsub
          simp only [List.length_cons] at hsub
          have hne2 : (c :: cs).dropWhile (runPred c) = cs.dropWhile (runPred c) :=
            List.dropWhile_cons_of_pos (runPred_self c)
          rw [hne2] at hrest
          have := (List.dropWhile_sublist (l := cs) (runPred c)).length_le
          rw [hrest] at this
          simp only [List.length_cons] at this ⊢
          omega
        have hih : (match (tokenize (r :: rs)).getLast? with
            | some r => if runIsDigit r then digitsVal r else 0
            | none => 0) = digitsVal (((r :: rs).reverse.takeWhile Char.isDigit).reverse) :=
          ih (r :: rs) hlenr
        rw [hih]
        refine congrArg (fun z : List Char => digitsVal z.reverse) ?_
        have hsplit : (c :: cs) = (c :: cs).takeWhile (runPred c) ++ (r :: rs) := by
          rw [← hrest, List.takeWhile_append_dropWhile]
        rw [hsplit, List.reverse_append]
        by_cases hall : ∀ x ∈ (r :: rs).reverse, x.isDigit = true
        · have hr1 : r.isDigit = true := hall r (List.mem_reverse.mpr (List.mem_cons_self _ _))
          have hcnd : c.isDigit = false := by
            have hfail := dropWhile_head_false hrest
            simp only [runPred] at hfail
            cases hcd : c.isDigit with
            | false => rfl
            | true => rw [hr1, hcd] at hfail; simp at hfail
          have hrunall : ∀ x ∈ ((c :: cs).takeWhile (runPred c)).reverse, x.isDigit = false := by
            intro x hx
            have h2 := List.mem_takeWhile_imp (List.mem_reverse.mp hx)
            simp only [runPred, hcnd] at h2
            simpa using h2
          rw [takeWhile_append_all _ hall, takeWhile_eq_nil_of_all hrunall,
            List.takeWhile_eq_self_iff.mpr hall, List.append_nil]
        · push_neg at hall
          rcases hall with ⟨x, hx, hxd⟩
          rw [takeWhile_append_stop _ ⟨x, hx, by simpa using hxd⟩]

theorem extract_end_spec (s : String) :
    extract_number_at_end s = digitsVal ((s.data.reverse.takeWhile Char.isDigit).reverse) :=
  extract_end_aux s.data.length s.data (Nat.le_refl _)

/-! ## Comparison theory for the natural sort key -/

theorem cmpNat_eq_iff (a b : Nat) : cmpNat a b = .eq ↔ a = b := by
  rw [cmpNat]
  split_ifs with h1 h2 <;> simp <;> omega

theorem cmpNat_lt_iff (a b : Nat) : cmpNat a b = .lt ↔ a < b := by
  rw [cmpNat]
  split_ifs with h1 h2 <;> simp <;> omega

theorem cmpNat_swap (a b : Nat) : (cmpNat a b).swap = cmpNat b a := by
  rw [cmpNat, cmpNat]
  split_ifs with h1 h2 h3 h4 <;> first | rfl | omega

theorem cmpNat_trans {a b c : Nat} (h1 : cmpNat a b = .lt) (h2 : cmpNat b c = .lt) :
    cmpNat a c = .lt := by
  rw [cmpNat_lt_iff] at h1 h2 ⊢
  omega

theorem cmpChar_eq_iff (a b : Char) : cmpChar a b = .eq ↔ a = b := by
  rw [cmpChar, cmpNat_eq_iff]
  constructor
  · intro h
    exact Char.eq_of_val_eq (UInt32.eq_of_toBitVec_eq (BitVec.eq_of_toNat_eq h))
  · intro h
    rw [h]

theorem cmpChar_swap (a b : Char) : (cmpChar a b).swap = cmpChar b a := cmpNat_swap _ _

theorem cmpChar_trans {a b c : Char} (h1 : cmpChar a b = .lt) (h2 : cmpChar b c = .lt) :
    cmpChar a c = .lt := cmpNat_trans h1 h2

theorem lexCmp_eq_iff {α : Type} {c : α → α → Ordering}
    (hc : ∀ a b, c a b = .eq ↔ a = b) :
    ∀ as bs : List α, lexCmp c as bs = .eq ↔ as = bs := by
  intro as
  induction as with
  | nil => intro bs; cases bs <;> simp [lexCmp]
  | cons a as ih =>
    intro bs
    cases bs with
    | nil => simp [lexCmp]
    | cons b bs =>
      rw [lexCmp]
      rcases hab : c a b with h | h | h
      · simp only [List.cons.injEq]
        constructor
        · intro h2; simp at h2
        · rintro ⟨h2, _⟩
          rw [(hc a b).mpr h2] at hab
          simp at hab
      · have : a = b := (hc a b).mp hab
        subst this
        simp only [List.cons.injEq, true_and]
        exact ih bs
      · simp only [List.cons.injEq]
        constructor
        · intro h2; simp at h2
        · rintro ⟨h2, _⟩
          rw [(hc a b).mpr h2] at hab
          simp at hab

theorem lexCmp_swap {α : Type} {c : α → α → Ordering}
    (hc : ∀ a b, (c a b).swap = c b a) :
    ∀ as bs : List α, (lexCmp c as bs).swap = lexCmp c bs as := by
  intro as
  induction as with
  | nil => intro bs; cases bs <;> rfl
  | cons a as ih =>
    intro bs
    cases bs with
    | nil => rfl
    | cons b bs =>
      rw [lexCmp, lexCmp]
      rcases hab : c a b with h | h | h <;> rw [← hc a b, hab]
      · rfl
      · exact ih bs
      · rfl

theorem lexCmp_trans {α : Type} {c : α → α → Ordering}
    (hceq : ∀ a b, c a b = .eq ↔ a = b)
    (hct : ∀ a b d, c a b = .lt → c b d = .lt → c a d = .lt) :
    ∀ as bs ds : List α, lexCmp c as bs = .lt → lexCmp c bs ds = .lt →
      lexCmp c as ds = .lt := by
  intro as
  induction as with
  | nil =>
    intro bs ds h1 h2
    cases bs with
    | nil => exact h2
    | cons b bs =>
      cases ds with
      | nil => simp [lexCmp] at h2
      | cons d ds => rfl
  | cons a as ih =>
    intro bs ds h1 h2
    cases bs with
    | nil => simp [lexCmp] at h1
    | cons b bs =>
      cases ds with
      | nil => simp [lexCmp] at h2
      | cons d ds =>
        rw [lexCmp] at h1 h2 ⊢
        cases hab : c a b <;> rw [hab] at h1
        case lt =>
          cases hbd : c b d <;> rw [hbd] at h2
          case lt =>
            rw [hct a b d hab hbd]
          case eq =>
            have hbd2 : b = d := (hceq b d).mp hbd
            subst hbd2
            rw [hab]
          case gt =>
            have h2' : Ordering.gt = Ordering.lt := h2
            simp at h2'
        case eq =>
          have hab2 : a = b := (hceq a b).mp hab
          subst hab2
          have h1' : lexCmp c as bs = .lt := h1
          cases hbd : c a d <;> rw [hbd] at h2
          case eq =>
            have h2' : lexCmp c bs ds = .lt := h2
            exact ih bs ds h1' h2'
          case gt =>
            have h2' : Ordering.gt = Ordering.lt := h2
            simp at h2'
        case gt =>
          have h1' : Ordering.gt = Ordering.lt := h1
          simp at h1'

theorem cmpStr_eq_iff (s t : String) : cmpStr s t = .eq ↔ s = t := by
  rw [cmpStr, lexCmp_eq_iff cmpChar_eq_iff]
  constructor
  · exact String.ext
  · intro h; rw [h]

theorem cmpStr_swap (s t : String) : (cmpStr s t).swap = cmpStr t s :=
  lexCmp_swap cmpChar_swap _ _

theorem cmpStr_trans {s t u : String} (h1 : cmpStr s t = .lt) (h2 : cmpStr t u = .lt) :
    cmpStr s u = .lt :=
  lexCmp_trans cmpChar_eq_iff (fun _ _ _ => cmpChar_trans) _ _ _ h1 h2

theorem cmpElem_eq_iff (a b : SortElem) : cmpElem a b = .eq ↔ a = b := by
  cases a <;> cases b <;> simp [cmpElem, cmpStr_eq_iff, cmpNat_eq_iff]

theorem cmpElem_swap (a b : SortElem) : (cmpElem a b).swap = cmpElem b a := by
  cases a <;> cases b <;> simp [cmpElem, cmpStr_swap, cmpNat_swap] <;> rfl

theorem cmpElem_trans {a b c : SortElem} (h1 : cmpElem a b = .lt) (h2 : cmpElem b c = .lt) :
    cmpElem a c = .lt := by
  cases a <;> cases b <;> cases c <;> simp_all [cmpElem]
  · exact cmpStr_trans h1 h2
  · exact cmpNat_trans h1 h2

theorem cmpElem_refl (a : SortElem) : cmpElem a a = .eq := (cmpElem_eq_iff a a).mpr rfl

theorem cmpKey_eq_iff (a b : SortKey) : cmpKey a b = .eq ↔ a = b :=
  lexCmp_eq_iff cmpElem_eq_iff a b

theorem cmpKey_swap (a b : SortKey) : (cmpKey a b).swap = cmpKey b a :=
  lexCmp_swap cmpElem_swap a b

theorem cmpKey_trans {a b c : SortKey} (h1 : cmpKey a b = .lt) (h2 : cmpKey b c = .lt) :
    cmpKey a c = .lt :=
  lexCmp_trans cmpElem_eq_iff (fun _ _ _ => cmpElem_trans) a b c h1 h2

theorem cmpKey_append_left (p : SortKey) :
    ∀ xs ys : SortKey, cmpKey (p ++ xs) (p ++ ys) = cmpKey xs ys := by
  induction p with
  | nil => intro xs ys; rfl
  | cons a p ih =>
    intro xs ys
    show lexCmp cmpElem (a :: (p ++ xs)) (a :: (p ++ ys)) = _
    rw [lexCmp, cmpElem_refl]
    exact ih xs ys

theorem cmpKey_strict_prefix (k : SortKey) (x : SortElem) (xs : SortKey) :
    cmpKey k (k ++ x :: xs) = .lt := by
  have h := cmpKey_append_left k [] (x :: xs)
  simpa using h

/-! ## Executor: filesystem lemmas -/

theorem names_append (l1 l2 : FS) : names (l1 ++ l2) = names l1 ++ names l2 :=
  List.map_append _ _ _

theorem names_cons (p : String × Nat) (l : FS) : names (p :: l) = p.1 :: names l := rfl

theorem mem_names_of_mem {p : String × Nat} {fs : FS} (h : p ∈ fs) : p.1 ∈ names fs :=
  List.mem_map_of_mem _ h

theorem names_perm {fs1 fs2 : FS} (h : fs1.Perm fs2) : (names fs1).Perm (names fs2) :=
  h.map _

theorem names_destm (l : List PlanEntry) :
    names (l.map fun e => (e.dest, e.id)) = l.map PlanEntry.dest := by
  rw [names, List.map_map]
  rfl

theorem names_srcm (l : List PlanEntry) :
    names (l.map fun e => (e.src, e.id)) = l.map PlanEntry.src := by
  rw [names, List.map_map]
  rfl

theorem renameFile_self (fs : FS) (a : String) : renameFile fs a a = fs := by
  simp [renameFile]

theorem renameFile_perm {fs1 fs2 : FS} (h : fs1.Perm fs2) (a b : String) :
    (renameFile fs1 a b).Perm (renameFile fs2 a b) := by
  rw [renameFile, renameFile]
  by_cases hab : a = b
  · simpa [hab] using h
  · simp only [if_neg hab]
    exact (h.filter _).map _

theorem renameFile_cons_perm {fs : FS} {a b : String} {i : Nat} {rest : FS}
    (hperm : fs.Perm ((a, i) :: rest)) (hnodup : (names fs).Nodup) (hb : b ∉ names fs) :
    (renameFile fs a b).Perm ((b, i) :: rest) := by
  have ha : a ∈ names fs :=
    mem_names_of_mem (hperm.mem_iff.mpr (List.mem_cons_self _ _))
  have hab : a ≠ b := fun h => hb (h ▸ ha)
  refine (renameFile_perm hperm a b).trans ?_
  have hb2 : b ∉ names ((a, i) :: rest) := fun h => hb ((names_perm hperm).mem_iff.mpr h)
  have hnd2 : (names ((a, i) :: rest)).Nodup := (names_perm hperm).nodup_iff.mp hnodup
  rw [names_cons] at hnd2 hb2
  have hfilter : ((a, i) :: rest).filter (fun p => decide (p.1 ≠ b)) = (a, i) :: rest := by
    apply List.filter_eq_self.mpr
    intro p hp
    have : p.1 ∈ names ((a, i) :: rest) := mem_names_of_mem hp
    rw [names_cons] at this
    simp only [decide_eq_true_eq]
    intro hpb
    exact hb2 (hpb ▸ this)
  have hmap : ((a, i) :: rest).map (fun p => if p.1 = a then (b, p.2) else p) =
      (b, i) :: rest := by
    rw [List.map_cons, if_pos rfl]
    refine congrArg _ ?_
    have hanotin : a ∉ names rest := (List.nodup_cons.mp hnd2).1
    have : ∀ p ∈ rest, (if p.1 = a then ((b, p.2) : String × Nat) else p) = p := by
      intro p hp
      rw [if_neg]
      intro hpa
      exact hanotin (hpa ▸ mem_names_of_mem hp)
    rw [List.map_congr_left this]
    exact List.map_id _
  rw [renameFile, if_neg hab, hfilter, hmap]

theorem phase2_snoc : ∀ (p : List (String × String)) (x : String × String) (fs : FS),
    phase2 (p ++ [x]) fs = renameFile (phase2 p fs) x.1 x.2 := by
  intro p
  induction p with
  | nil => intro x fs; cases x; rfl
  | cons y p ih =>
    intro x fs
    cases y
    rw [List.cons_append, phase2, phase2, ih]

/-! ## Executor: the two-phase invariant -/

theorem execute_aux (dests : List String) :
    ∀ (rest : List PlanEntry) (fs other : FS),
      fs.Perm (other ++ rest.map (fun e => (e.src, e.id))) →
      (names fs).Nodup →
      (rest.map PlanEntry.dest).Nodup →
      (∀ e ∈ rest, e.dest ∉ names other) →
      (∀ e ∈ rest, e.dest ∈ dests) →
      (phase2 (phase1 dests rest fs).2 (phase1 dests rest fs).1).Perm
        (other ++ rest.map (fun e => (e.dest, e.id))) := by
  intro rest
  induction rest with
  | nil =>
    intro fs other hperm _ _ _ _
    simpa [phase1, phase2] using hperm
  | cons e rest ih =>
    intro fs other hperm hnodup hdnodup hdother hddests
    have hperm' : fs.Perm ((e.src, e.id) :: (other ++ rest.map fun e => (e.src, e.id))) := by
      refine hperm.trans ?_
      simp only [List.map_cons]
      exact List.perm_middle
    have hnames' : (names fs).Perm
        (e.src :: names (other ++ rest.map fun e => (e.src, e.id))) := by
      have h2 := names_perm hperm'
      rwa [names_cons] at h2
    have hnd_rest : (names (other ++ rest.map fun e => (e.src, e.id))).Nodup :=
      (List.nodup_cons.mp (hnames'.nodup_iff.mp hnodup)).2
    have hsub_rest : ∀ x, x ∈ names (other ++ rest.map fun e => (e.src, e.id)) →
        x ∈ names fs := by
      intro x hx
      exact hnames'.mem_iff.mpr (List.mem_cons_of_mem _ hx)
    have hsub_other : ∀ x, x ∈ names other → x ∈ names fs := by
      intro x hx
      apply hsub_rest
      rw [names_append]
      exact List.mem_append_left _ hx
    have hnd_other : (names other).Nodup := by
      rw [names_append] at hnd_rest
      exact hnd_rest.of_append_left
    have hd_tail_nodup : (rest.map PlanEntry.dest).Nodup := (List.nodup_cons.mp hdnodup).2
    have hd_head_notin : e.dest ∉ rest.map PlanEntry.dest := (List.nodup_cons.mp hdnodup).1
    by_cases hcond : e.dest ∈ names fs ∧ e.dest ≠ e.src
    · -- destination occupied: deferred via a fresh temporary name
      have hph : phase1 dests (e :: rest) fs =
          ((phase1 dests rest (renameFile fs e.src (freshTemp (names fs ++ dests)))).1,
           (phase1 dests rest (renameFile fs e.src (freshTemp (names fs ++ dests)))).2 ++
             [(freshTemp (names fs ++ dests), e.dest)]) := by
        rw [phase1, if_pos hcond]
      set t := freshTemp (names fs ++ dests) with ht
      have htfresh : t ∉ names fs ++ dests := freshTemp_not_mem _
      have ht_fs : t ∉ names fs := fun h => htfresh (List.mem_append_left _ h)
      have ht_dests : t ∉ dests := fun h => htfresh (List.mem_append_right _ h)
      rw [hph, phase2_snoc]
      have hfs1 : (renameFile fs e.src t).Perm
          ((t, e.id) :: (other ++ rest.map fun e => (e.src, e.id))) :=
        renameFile_cons_perm hperm' hnodup ht_fs
      have hnfs1 : (names (renameFile fs e.src t)).Nodup := by
        have h1 : (names (renameFile fs e.src t)).Perm
            (t :: names (other ++ rest.map fun e => (e.src, e.id))) := by
          have h2 := names_perm hfs1
          rwa [names_cons] at h2
        apply h1.nodup_iff.mpr
        exact List.nodup_cons.mpr ⟨fun h => ht_fs (hsub_rest t h), hnd_rest⟩
      have hIH := ih (renameFile fs e.src t) ((t, e.id) :: other)
        (by
          refine hfs1.trans ?_
          rw [List.cons_append])
        hnfs1 hd_tail_nodup
        (by
          intro e' he'
          rw [names_cons]
          simp only [List.mem_cons, not_or]
          exact ⟨fun h => ht_dests (h ▸ hddests e' (List.mem_cons_of_mem _ he')),
            fun h => hdother e' (List.mem_cons_of_mem _ he') h⟩)
        (fun e' he' => hddests e' (List.mem_cons_of_mem _ he'))
      -- hIH : phase2 … ~ ((t, e.id) :: other) ++ rest.map (dest, id)
      have hM : (phase2 (phase1 dests rest (renameFile fs e.src t)).2
          (phase1 dests rest (renameFile fs e.src t)).1).Perm
          ((t, e.id) :: (other ++ rest.map fun e => (e.dest, e.id))) := by
        refine hIH.trans ?_
        rw [List.cons_append]
      have hMnames : (names (phase2 (phase1 dests rest (renameFile fs e.src t)).2
          (phase1 dests rest (renameFile fs e.src t)).1)).Perm
          (t :: (names other ++ rest.map PlanEntry.dest)) := by
        have h2 := names_perm hM
        rwa [names_cons, names_append, names_destm] at h2
      have hMnodup : (names (phase2 (phase1 dests rest (renameFile fs e.src t)).2
          (phase1 dests rest (renameFile fs e.src t)).1)).Nodup := by
        apply hMnames.nodup_iff.mpr
        apply List.nodup_cons.mpr
        constructor
        · simp only [List.mem_append, not_or]
          refine ⟨fun h => ht_fs (hsub_other t h), ?_⟩
          intro h
          rcases List.mem_map.mp h with ⟨e', he', hde⟩
          exact ht_dests (hde ▸ hddests e' (List.mem_cons_of_mem _ he'))
        · apply List.nodup_append.mpr
          refine ⟨hnd_other, hd_tail_nodup, ?_⟩
          intro x hx hx2
          rcases List.mem_map.mp hx2 with ⟨e', he', hde⟩
          exact hdother e' (List.mem_cons_of_mem _ he') (hde ▸ hx)
      have hdest_notM : e.dest ∉ names (phase2 (phase1 dests rest (renameFile fs e.src t)).2
          (phase1 dests rest (renameFile fs e.src t)).1) := by
        intro h
        have h2 := hMnames.mem_iff.mp h
        rcases List.mem_cons.mp h2 with h3 | h3
        · exact ht_dests (h3 ▸ hddests e (List.mem_cons_self _ _))
        · rcases List.mem_append.mp h3 with h4 | h4
          · exact hdother e (List.mem_cons_self _ _) h4
          · exact hd_head_notin h4
      have hfinal := renameFile_cons_perm hM hMnodup hdest_notM
      refine hfinal.trans ?_
      rw [List.map_cons]
      exact List.perm_middle.symm
    · -- destination free (or equal to the source): direct rename
      have hph : phase1 dests (e :: rest) fs =
          phase1 dests rest (renameFile fs e.src e.dest) := by
        rw [phase1, if_neg hcond]
      rw [hph]
      have hfs1 : (renameFile fs e.src e.dest).Perm
          ((e.dest, e.id) :: (other ++ rest.map fun e => (e.src, e.id))) := by
        by_cases hds : e.dest = e.src
        · rw [hds, renameFile_self]
          exact hperm'
        · have hnm : e.dest ∉ names fs := by
            intro h
            exact hcond ⟨h, hds⟩
          exact renameFile_cons_perm hperm' hnodup hnm
      have hnfs1 : (names (renameFile fs e.src e.dest)).Nodup := by
        have h1 : (names (renameFile fs e.src e.dest)).Perm
            (e.dest :: names (other ++ rest.map fun e => (e.src, e.id))) := by
          have h2 := names_perm hfs1
          rwa [names_cons] at h2
        apply h1.nodup_iff.mpr
        apply List.nodup_cons.mpr
        refine ⟨?_, hnd_rest⟩
        by_cases hds : e.dest = e.src
        · rw [hds]
          exact (List.nodup_cons.mp (hnames'.nodup_iff.mp hnodup)).1
        · intro h
          exact hcond ⟨hsub_rest _ h, hds⟩
      have hIH := ih (renameFile fs e.src e.dest) ((e.dest, e.id) :: other)
        (by
          refine hfs1.trans ?_
          rw [List.cons_append])
        hnfs1 hd_tail_nodup
        (by
          intro e' he'
          rw [names_cons]
          simp only [List.mem_cons, not_or]
          refine ⟨?_, fun h => hdother e' (List.mem_cons_of_mem _ he') h⟩
          intro h
          exact hd_head_notin (h ▸ List.mem_map_of_mem PlanEntry.dest he'))
        (fun e' he' => hddests e' (List.mem_cons_of_mem _ he'))
      refine hIH.trans ?_
      rw [List.map_cons, List.cons_append]
      exact List.perm_middle.symm

/-- Top-level safety of the two-phase executor over the whole directory. -/
theorem execute_plan_perm (plan : List PlanEntry)
    (hsrc : (plan.map PlanEntry.src).Nodup) (hdest : (plan.map PlanEntry.dest).Nodup) :
    (execute_plan plan (plan.map fun e => (e.src, e.id))).Perm
      (plan.map fun e => (e.dest, e.id)) := by
  have h := execute_aux (plan.map PlanEntry.dest) plan
    (plan.map fun e => (e.src, e.id)) []
    (by simp)
    (by rw [names_srcm]; exact hsrc)
    hdest
    (by intro e _ h; simp [names] at h)
    (fun e he => List.mem_map_of_mem PlanEntry.dest he)
  simpa [execute_plan] using h

/-! ## GUI download-loop deduplication -/

theorem uniqueUrlsAux_eq : ∀ (us seen : List String),
    uniqueUrlsAux seen us = removeLaterDups (us.filter fun v => decide (v ∉ seen)) := by
  intro us
  induction us with
  | nil => intro seen; simp [uniqueUrlsAux, removeLaterDups]
  | cons u us ih =>
    intro seen
    by_cases hu : u ∈ seen
    · rw [uniqueUrlsAux, if_pos hu, List.filter_cons_of_neg (by simp [hu])]
      exact ih seen
    · rw [uniqueUrlsAux, if_neg hu, List.filter_cons_of_pos (by simp [hu]),
        removeLaterDups, ih (u :: seen)]
      refine congrArg _ (congrArg _ ?_)
      rw [List.filter_filter]
      apply List.filter_congr
      intro v _
      by_cases h1 : v = u <;> by_cases h2 : v ∈ seen <;>
        simp [List.mem_cons, h1, h2]

theorem unique_urls_eq (urls : List String) : unique_urls urls = removeLaterDups urls := by
  rw [unique_urls, uniqueUrlsAux_eq]
  refine congrArg _ ?_
  apply List.filter_eq_self.mpr
  intro a _
  simp

theorem removeLaterDups_subset : ∀ (l : List String), ∀ x ∈ removeLaterDups l, x ∈ l := by
  intro l
  induction l using removeLaterDups.induct with
  | case1 => intro x hx; simp [removeLaterDups] at hx
  | case2 u us ih =>
    intro x hx
    rw [removeLaterDups] at hx
    rcases List.mem_cons.mp hx with h | h
    · exact h ▸ List.mem_cons_self _ _
    · have := ih x h
      exact List.mem_cons_of_mem _ (List.mem_of_mem_filter this)

theorem removeLaterDups_nodup : ∀ (l : List String), (removeLaterDups l).Nodup := by
  intro l
  induction l using removeLaterDups.induct with
  | case1 => simp [removeLaterDups]
  | case2 u us ih =>
    rw [removeLaterDups]
    apply List.nodup_cons.mpr
    refine ⟨?_, ih⟩
    intro hmem
    have h2 := removeLaterDups_subset _ _ hmem
    have h3 := List.of_mem_filter h2
    simp at h3

/-! # Claim theorems -/

/-- **C1.** For every input file list and every naming policy (Sequential,
NumbersOnly, TextOnly, with any prefix/suffix), `build_plan` produces no two
entries with equal destination stems: the collision resolution appends the
first free `_<n>` suffix (n = 2, 3, … ascending, skipping collisions) until
the stem is unused, so all planned destination stems are pairwise distinct,
deterministically in the input order. -/
theorem build_plan_unique_dest_stems (entries : List FileEntry) (policy : Policy)
    (pre suf : String) :
    ((build_plan entries policy pre suf).map Prod.snd).Nodup :=
  (build_plan_aux_nodup policy pre suf entries [] 1).1

/-- **C2.** For every plan executed in Execute mode (sources of the directory
and pairwise-distinct destinations), even with cyclic name dependencies, the
two-phase executor moves every file to its planned destination and no file is
ever overwritten: the resulting directory is exactly the planned
destination-name/file-identity association, up to order. -/
theorem execute_plan_two_phase_safe (plan : List PlanEntry)
    (hsrc : (plan.map PlanEntry.src).Nodup) (hdest : (plan.map PlanEntry.dest).Nodup) :
    (execute_plan plan (plan.map fun e => (e.src, e.id))).Perm
      (plan.map fun e => (e.dest, e.id)) :=
  execute_plan_perm plan hsrc hdest

/-- Witness for C2: swapping two files' names via the two-phase executor. -/
theorem execute_plan_two_phase_safe_witness :
    (execute_plan [⟨"a", "b", 0⟩, ⟨"b", "a", 1⟩]
        (([⟨"a", "b", 0⟩, ⟨"b", "a", 1⟩] : List PlanEntry).map fun e => (e.src, e.id))).Perm
      (([⟨"a", "b", 0⟩, ⟨"b", "a", 1⟩] : List PlanEntry).map fun e => (e.dest, e.id)) :=
  execute_plan_two_phase_safe [⟨"a", "b", 0⟩, ⟨"b", "a", 1⟩] (by decide) (by decide)

/-- **C3.** Running the rename operation in Preview or DryRun mode performs
zero filesystem mutation — the directory contents after the run equal the
contents before — and the emitted output is the `source -> destination`
preview lines plus, in preview mode, the explicit statement that no files
were modified. -/
theorem preview_dry_run_no_mutation (entries : List FileEntry) (sm : SortMode)
    (policy : Policy) (pre suf : String) (mode : RunMode)
    (h : mode = .preview ∨ mode = .dryRun) :
    (rename_files entries sm policy pre suf mode).2 = initFS entries ∧
    (rename_files entries sm policy pre suf mode).1 =
      (build_plan (sort_files entries sm) policy pre suf).map
          (fun p => previewLine p.1 p.2) ++
        (if mode = .preview then ["Preview complete! No files were actually renamed"]
          else []) := by
  rcases h with h | h <;> subst h <;> exact ⟨rfl, by simp [rename_files]⟩

/-- Witness for C3: previewing a directory leaves it untouched. -/
theorem preview_dry_run_no_mutation_witness :
    (rename_files [⟨"photo_001", ".jpg", 0⟩] .byName .sequential "" "" .preview).2 =
      initFS [⟨"photo_001", ".jpg", 0⟩] ∧
    (rename_files [⟨"photo_001", ".jpg", 0⟩] .byName .sequential "" "" .preview).1 =
      (build_plan (sort_files [⟨"photo_001", ".jpg", 0⟩] .byName) .sequential "" "").map
          (fun p => previewLine p.1 p.2) ++
        (if RunMode.preview = RunMode.preview then
          ["Preview complete! No files were actually renamed"] else []) :=
  preview_dry_run_no_mutation [⟨"photo_001", ".jpg", 0⟩] .byName .sequential "" ""
    .preview (Or.inl rfl)

/-- **C4.** Under the Sequential policy the entry at 1-based position `i`
receives destination stem `prefix ++ i ++ suffix` (contiguous numbering from
1, extension carried over unchanged), and executing Sequential with ByName
sorting and prefix `image_` on `photo_003.jpg, photo_001.jpg, photo_002.jpg`
yields exactly `image_1.jpg, image_2.jpg, image_3.jpg` with `photo_001 →
image_1`, `photo_002 → image_2`, `photo_003 → image_3`. -/
theorem sequential_numbering_spec :
    (∀ (entries : List FileEntry) (pre suf : String) (i : Nat) (e : FileEntry),
        entries[i]? = some e →
        (build_plan entries .sequential pre suf)[i]? =
          some (e, pre ++ natRepr (i + 1) ++ suf)) ∧
    (rename_files [⟨"photo_003", ".jpg", 0⟩, ⟨"photo_001", ".jpg", 1⟩,
        ⟨"photo_002", ".jpg", 2⟩] .byName .sequential "image_" "" .execute).2.Perm
      [("image_1.jpg", 1), ("image_2.jpg", 2), ("image_3.jpg", 0)] := by
  constructor
  · intro entries pre suf i e h
    rw [build_plan, build_plan_aux_seq pre suf entries [] 1 (by intro j _ hj; simp at hj)]
    have h2 := seqPlan_getElem? pre suf entries 1 i e h
    rwa [Nat.add_comm 1 i] at h2
  · decide

/-- Witness for C4: the second entry (index 1) of a sequential plan gets
stem `prefix ++ 2 ++ suffix`. -/
theorem sequential_numbering_spec_witness :
    (([⟨"a", ".txt", 0⟩, ⟨"b", ".txt", 1⟩] : List FileEntry)[1]? =
        some ⟨"b", ".txt", 1⟩) ∧
    (build_plan [⟨"a", ".txt", 0⟩, ⟨"b", ".txt", 1⟩] .sequential "f_" "_x")[1]? =
      some (⟨"b", ".txt", 1⟩, "f_" ++ natRepr 2 ++ "_x") :=
  ⟨by decide,
   sequential_numbering_spec.1 [⟨"a", ".txt", 0⟩, ⟨"b", ".txt", 1⟩] "f_" "_x" 1
     ⟨"b", ".txt", 1⟩ (by decide)⟩

/-- **C5.** `natural_sort_key` yields an order in which numeric runs compare
by value (so 2 sorts before 10), text runs compare by ordinary character
ordering, a strict prefix sorts first, and sorting
`[file2.txt, file10.txt, file1.txt]` gives `[file1.txt, file2.txt,
file10.txt]`. -/
theorem natural_sort_key_spec :
    (∀ (p k1 k2 : SortKey) (a b : Nat), a < b →
        cmpKey (p ++ .num a :: k1) (p ++ .num b :: k2) = .lt) ∧
    (∀ (p k1 k2 : SortKey) (s t : String), cmpStr s t = .lt →
        cmpKey (p ++ .text s :: k1) (p ++ .text t :: k2) = .lt) ∧
    (∀ (k : SortKey) (x : SortElem) (xs : SortKey), cmpKey k (k ++ x :: xs) = .lt) ∧
    isort keyLe ["file2.txt", "file10.txt", "file1.txt"] =
      ["file1.txt", "file2.txt", "file10.txt"] := by
  refine ⟨?_, ?_, cmpKey_strict_prefix, by decide⟩
  · intro p k1 k2 a b hab
    rw [cmpKey_append_left]
    show lexCmp cmpElem (.num a :: k1) (.num b :: k2) = .lt
    rw [lexCmp]
    have h2 : cmpElem (.num a) (.num b) = .lt := (cmpNat_lt_iff a b).mpr hab
    rw [h2]
  · intro p k1 k2 s t hst
    rw [cmpKey_append_left]
    show lexCmp cmpElem (.text s :: k1) (.text t :: k2) = .lt
    rw [lexCmp]
    have h2 : cmpElem (.text s) (.text t) = .lt := hst
    rw [h2]

/-- Witness for C5: 2 sorts before 10 and "abc" before "abd". -/
theorem natural_sort_key_spec_witness :
    cmpKey [.num 2] [.num 10] = .lt ∧ cmpKey [.text "abc"] [.text "abd"] = .lt :=
  ⟨natural_sort_key_spec.1 [] [] [] 2 10 (by decide),
   natural_sort_key_spec.2.1 [] [] [] "abc" "abd" (by decide)⟩

/-- **C6.** `extract_number_and_text s` returns the base-10 value of the
first maximal digit run of `s` (the whole run consumed) together with all
remaining characters in original order, and `(0, s)` when `s` has no digit;
including the concrete cases recorded in the repository's tests. -/
theorem extract_number_and_text_spec :
    (∀ s : String,
        extract_number_and_text s =
          (digitsVal ((s.data.dropWhile fun c => !c.isDigit).takeWhile Char.isDigit),
           ⟨(s.data.takeWhile fun c => !c.isDigit) ++
             ((s.data.dropWhile fun c => !c.isDigit).dropWhile Char.isDigit)⟩)) ∧
    (∀ s : String, (∀ c ∈ s.data, c.isDigit = false) →
        extract_number_and_text s = (0, s)) ∧
    extract_number_and_text "photo_001.jpg" = (1, "photo_.jpg") ∧
    extract_number_and_text "image100text.png" = (100, "imagetext.png") ∧
    extract_number_and_text "noNumbers.jpg" = (0, "noNumbers.jpg") ∧
    extract_number_and_text "123.png" = (123, ".png") ∧
    extract_number_and_text "file 50 with spaces.txt" = (50, "file  with spaces.txt") := by
  have hmain : ∀ s : String,
      extract_number_and_text s =
        (digitsVal ((s.data.dropWhile fun c => !c.isDigit).takeWhile Char.isDigit),
         ⟨(s.data.takeWhile fun c => !c.isDigit) ++
           ((s.data.dropWhile fun c => !c.isDigit).dropWhile Char.isDigit)⟩) := by
    intro s
    have h := removeFirst_tokenize_spec s.data
    simp only [extract_number_and_text]
    exact congrArg₂ Prod.mk h.1 (congrArg String.mk h.2)
  have hnodigit : ∀ s : String, (∀ c ∈ s.data, c.isDigit = false) →
      extract_number_and_text s = (0, s) := by
    intro s hnd
    rw [hmain s]
    have h1 : s.data.dropWhile (fun c => !c.isDigit) = [] :=
      List.dropWhile_eq_nil_iff.mpr (by intro x hx; simp [hnd x hx])
    have h2 : s.data.takeWhile (fun c => !c.isDigit) = s.data :=
      List.takeWhile_eq_self_iff.mpr (by intro x hx; simp [hnd x hx])
    rw [h1, h2]
    show (digitsVal [], (⟨s.data ++ []⟩ : String)) = (0, s)
    rw [List.append_nil]
    rfl
  exact ⟨hmain, hnodigit, by decide, by decide, by decide, by decide, by decide⟩

/-- Witness for C6: a digit-free string is returned unchanged with number 0. -/
theorem extract_number_and_text_spec_witness :
    (∀ c ∈ ("abc" : String).data, c.isDigit = false) ∧
    extract_number_and_text "abc" = (0, "abc") :=
  ⟨by decide, extract_number_and_text_spec.2.1 "abc" (by decide)⟩

/-- **C7.** `extract_text_only` is the in-order concatenation of the
non-digit runs (equivalently, all digits removed), `extract_numbers_only`
the in-order concatenation of the digit runs (leading zeros preserved, empty
without digits), and the tokenizer's runs partition the string exactly:
flattening them back reconstructs the input. -/
theorem extract_partition_spec :
    (∀ s : String, extract_text_only s = ⟨s.data.filter fun c => !c.isDigit⟩) ∧
    (∀ s : String, extract_numbers_only s = ⟨s.data.filter Char.isDigit⟩) ∧
    (∀ s : String, (tokenize s.data).flatten = s.data) ∧
    extract_text_only "abc123def456.txt" = "abcdef.txt" ∧
    extract_numbers_only "abc123def456.txt" = "123456" ∧
    extract_text_only "PreviewFemale3D_9" = "PreviewFemaleD_" ∧
    extract_numbers_only "PreviewFemale3D_9" = "39" ∧
    extract_numbers_only "noNumbers.jpg" = "" ∧
    extract_text_only "12345" = "" := by
  refine ⟨?_, ?_, fun s => tokenize_flatten s.data,
    by decide, by decide, by decide, by decide, by decide, by decide⟩
  · intro s
    exact congrArg String.mk (tokenize_filter_nondigit s.data.length s.data (Nat.le_refl _))
  · intro s
    exact congrArg String.mk (tokenize_filter_digit s.data.length s.data (Nat.le_refl _))

/-- **C8.** `extract_number_at_end` returns the value of the final maximal
digit run when the string ends in digits and 0 otherwise (in particular on
the empty string), including the concrete cases recorded in the repository's
tests. -/
theorem extract_number_at_end_spec :
    (∀ s : String, extract_number_at_end s =
        digitsVal ((s.data.reverse.takeWhile Char.isDigit).reverse)) ∧
    extract_number_at_end "PreviewFemale3D_9" = 9 ∧
    extract_number_at_end "PreviewFemale3D_10" = 10 ∧
    extract_number_at_end "test" = 0 ∧
    extract_number_at_end "" = 0 ∧
    extract_number_at_end "a1b2c3" = 3 ∧
    extract_number_at_end "file123456" = 123456 ∧
    extract_number_at_end "file_no_number" = 0 :=
  ⟨extract_end_spec, by decide, by decide, by decide, by decide, by decide,
   by decide, by decide⟩

/-- **C9.** At the first differing position a Text element always compares
strictly less than a Number element, and comparison of sort keys is a total
order: equality holds exactly on equal keys, the comparison is antisymmetric
under swapping its arguments, and strict comparison is transitive. -/
theorem mixed_kind_total_order :
    (∀ (p k1 k2 : SortKey) (s : String) (n : Nat),
        cmpKey (p ++ .text s :: k1) (p ++ .num n :: k2) = .lt) ∧
    (∀ a b : SortKey, cmpKey a b = .eq ↔ a = b) ∧
    (∀ a b : SortKey, (cmpKey a b).swap = cmpKey b a) ∧
    (∀ a b c : SortKey, cmpKey a b = .lt → cmpKey b c = .lt → cmpKey a c = .lt) := by
  refine ⟨?_, cmpKey_eq_iff, cmpKey_swap, fun a b c h1 h2 => cmpKey_trans h1 h2⟩
  intro p k1 k2 s n
  rw [cmpKey_append_left]
  rfl

/-- Witness for C9: transitivity applied at concrete keys. -/
theorem mixed_kind_total_order_witness :
    cmpKey [.num 1] [.num 3] = .lt :=
  mixed_kind_total_order.2.2.2 [.num 1] [.num 2] [.num 3] (by decide) (by decide)

/-- **C10.** The GUI download loop iterates over the extracted URL sequence
with every occurrence after the first removed, preserving first-occurrence
order (so each distinct URL is processed at most once), and the reported
total counts these unique URLs. -/
theorem download_dedup_spec :
    (∀ urls : List String, unique_urls urls = removeLaterDups urls) ∧
    (∀ urls : List String, (unique_urls urls).Nodup) ∧
    (∀ urls : List String, downloadTotal urls = (unique_urls urls).length) :=
  ⟨unique_urls_eq,
   fun urls => (unique_urls_eq urls) ▸ removeLaterDups_nodup urls,
   fun _ => rfl⟩

end BatchRename
